import Mathlib

/-!
Verification development for the `ore-cli` miner.

The definitions below are a shallow embedding of the Rust sources in
`src/`: machine integers (`u64`) become `Nat` with explicit saturation
where the source saturates, byte arrays become `List Nat` with a
well-formedness predicate (every entry `< 256`), and the external keccak
hash `hashv` from `solana_sdk` becomes an abstract function parameter.
The parallel search loop of `find_next_hash_par` is embedded as an
interleaving step relation on a machine state holding each worker's
local state, the shared stop flag, and the shared mutex-protected
result slot.
-/

namespace OreCli

/-- Byte strings are lists of naturals; well-formed ones have entries `< 256`. -/
abbrev Bytes := List Nat

/-- A byte string is well formed when every entry is an actual byte value. -/
def BytesWF (l : Bytes) : Prop := ∀ x ∈ l, x < 256

/-- `2^64`, one past the largest `u64` value. -/
def u64Size : Nat := 18446744073709551616

/-- `u64::MAX = 2^64 - 1`. -/
def u64Max : Nat := 18446744073709551615

/-- Rust `u64::saturating_mul`. -/
def satMul (a b : Nat) : Nat := min (a * b) u64Max

/-- Rust `u64::saturating_div` on `u64` (plain division; it cannot saturate,
and the source only evaluates it with a nonzero divisor). -/
def satDiv (a b : Nat) : Nat := a / b

/-- Big-endian unsigned integer value of a byte string. -/
def beVal (l : Bytes) : Nat := l.foldl (fun acc b => acc * 256 + b) 0

/-- Lexicographic `≤` on byte strings: the comparison the derived Rust
`PartialOrd` on `[u8; 32]` performs, used by `next_hash.le(&difficulty)`. -/
def lexLe : Bytes → Bytes → Bool
  | [], [] => true
  | [], _ :: _ => true
  | _ :: _, [] => false
  | a :: as, b :: bs => if a < b then true else if b < a then false else lexLe as bs

/-- The 8 little-endian bytes of a `u64`, as produced by `u64::to_le_bytes`. -/
def leBytes8 (n : Nat) : Bytes :=
  [n % 256, n / 256 % 256, n / 256 ^ 2 % 256, n / 256 ^ 3 % 256,
   n / 256 ^ 4 % 256, n / 256 ^ 5 % 256, n / 256 ^ 6 % 256, n / 256 ^ 7 % 256]

/-- Worker `i`'s starting nonce in `find_next_hash_par`:
`u64::MAX.saturating_div(threads).saturating_mul(i)` (mine.rs line 128). -/
def startNonce (threads i : Nat) : Nat := satMul (satDiv u64Max threads) i

theorem beVal_foldl (acc : Nat) (l : Bytes) :
    List.foldl (fun a b => a * 256 + b) acc l = acc * 256 ^ l.length + beVal l := by
  induction l generalizing acc with
  | nil => simp [beVal]
  | cons b bs ih =>
    show List.foldl _ (acc * 256 + b) bs = _
    rw [ih (acc * 256 + b)]
    have hb : beVal (b :: bs) = b * 256 ^ bs.length + beVal bs := by
      show List.foldl _ (0 * 256 + b) bs = _
      rw [ih (0 * 256 + b)]
      ring_nf
    rw [hb, List.length_cons, pow_succ]
    ring_nf

theorem beVal_cons (a : Nat) (l : Bytes) :
    beVal (a :: l) = a * 256 ^ l.length + beVal l := by
  show List.foldl _ (0 * 256 + a) l = _
  rw [beVal_foldl (0 * 256 + a) l]
  ring_nf

theorem beVal_lt (l : Bytes) (h : BytesWF l) : beVal l < 256 ^ l.length := by
  induction l with
  | nil => simp [beVal]
  | cons a as ih =>
    have ha : a < 256 := h a (List.mem_cons_self a as)
    have has : BytesWF as := fun x hx => h x (List.mem_cons_of_mem a hx)
    have h1 : beVal as < 256 ^ as.length := ih has
    rw [beVal_cons, List.length_cons, pow_succ]
    calc a * 256 ^ as.length + beVal as
        < a * 256 ^ as.length + 256 ^ as.length := by omega
      _ = (a + 1) * 256 ^ as.length := by ring
      _ ≤ 256 * 256 ^ as.length := by
          exact Nat.mul_le_mul_right _ (by omega)
      _ = 256 ^ as.length * 256 := by ring

/-- On equal-length well-formed byte strings, the lexicographic comparison
used by the source equals big-endian unsigned comparison. -/
theorem lexLe_iff_beVal_le (as bs : Bytes) (hlen : as.length = bs.length)
    (ha : BytesWF as) (hb : BytesWF bs) :
    lexLe as bs = true ↔ beVal as ≤ beVal bs := by
  induction as generalizing bs with
  | nil =>
    cases bs with
    | nil => simp [lexLe, beVal]
    | cons b bs => simp at hlen
  | cons a as ih =>
    cases bs with
    | nil => simp at hlen
    | cons b bs =>
      have hlen' : as.length = bs.length := by simpa using hlen
      have ha' : BytesWF as := fun x hx => ha x (List.mem_cons_of_mem a hx)
      have hb' : BytesWF bs := fun x hx => hb x (List.mem_cons_of_mem b hx)
      have haa : a < 256 := ha a (List.mem_cons_self a as)
      have hbb : b < 256 := hb b (List.mem_cons_self b bs)
      have hva : beVal as < 256 ^ as.length := beVal_lt as ha'
      have hvb : beVal bs < 256 ^ as.length := by
        rw [hlen']; exact beVal_lt bs hb'
      rw [beVal_cons, beVal_cons, ← hlen']
      show lexLe (a :: as) (b :: bs) = true ↔ _
      rw [lexLe]
      rcases Nat.lt_trichotomy a b with hab | hab | hab
      · have hstep : (a + 1) * 256 ^ as.length ≤ b * 256 ^ as.length :=
          Nat.mul_le_mul_right _ (by omega)
        have hlt : a * 256 ^ as.length + beVal as
            < b * 256 ^ as.length + beVal bs := calc
          a * 256 ^ as.length + beVal as
              < a * 256 ^ as.length + 256 ^ as.length := by omega
            _ = (a + 1) * 256 ^ as.length := by ring
            _ ≤ b * 256 ^ as.length := hstep
            _ ≤ b * 256 ^ as.length + beVal bs := Nat.le_add_right _ _
        simp only [if_pos hab, true_iff]
        exact le_of_lt hlt
      · subst hab
        simp only [lt_irrefl, if_false]
        rw [ih bs hlen' ha' hb']
        omega
      · have hstep : (b + 1) * 256 ^ as.length ≤ a * 256 ^ as.length :=
          Nat.mul_le_mul_right _ (by omega)
        have hlt : b * 256 ^ as.length + beVal bs
            < a * 256 ^ as.length + beVal as := calc
          b * 256 ^ as.length + beVal bs
              < b * 256 ^ as.length + 256 ^ as.length := by omega
            _ = (b + 1) * 256 ^ as.length := by ring
            _ ≤ a * 256 ^ as.length := hstep
            _ ≤ a * 256 ^ as.length + beVal as := Nat.le_add_right _ _
        simp only [if_neg (by omega : ¬ a < b), if_pos hab]
        exact iff_of_false (by simp) (not_le.mpr hlt)

/-! ### The parallel search engine `find_next_hash_par` (mine.rs lines 110-171)

The engine is embedded as an interleaving transition system.  Each spawned
worker is a `WState`; the shared stop flag `found_solution`, the
mutex-protected result slot `solution`, and ghost bookkeeping of the writes
live in `MState`.  A worker's loop body (compute `hashv`, possibly check the
stop flag at a `% 10_000` boundary, compare against the difficulty, write and
return on success) becomes the four `Step` constructors. -/

/-- Input to `find_next_hash_par`: the keccak function `hashv` of
`solana_sdk` (external to this repository, kept abstract), the previous
hash bytes, the signer public key bytes, and the difficulty bytes. -/
structure PowInput where
  hashv : Bytes → Bytes
  prevHash : Bytes
  pubkey : Bytes
  difficulty : Bytes

/-- A `PowInput` is well formed when `hashv` returns 32 well-formed bytes and
the difficulty is 32 well-formed bytes (as the Rust types guarantee). -/
def PowWF (inp : PowInput) : Prop :=
  (∀ l, (inp.hashv l).length = 32 ∧ BytesWF (inp.hashv l)) ∧
    inp.difficulty.length = 32 ∧ BytesWF inp.difficulty

/-- The candidate hash a worker computes at a nonce (mine.rs lines 132-136):
`hashv(&[hash.to_bytes(), pubkey.to_bytes(), nonce.to_le_bytes()])`. -/
def candidate (inp : PowInput) (nonce : Nat) : Bytes :=
  inp.hashv (inp.prevHash ++ inp.pubkey ++ leBytes8 nonce)

/-- A result pair is a valid solution when its hash is the candidate hash at
its own nonce and it passes the comparison `next_hash.le(&difficulty)`. -/
def validPair (inp : PowInput) (p : Bytes × Nat) : Prop :=
  p.1 = candidate inp p.2 ∧ lexLe p.1 inp.difficulty = true

/-- Local state of one worker thread of `find_next_hash_par`. -/
inductive WState where
  | running (nonce : Nat)
  | writing (p : Bytes × Nat)
  | done (wrote : Bool)
deriving DecidableEq

/-- The all-zero 32-byte hash `KeccakHash::new_from_array([0; 32])` the
result slot is initialised with (mine.rs lines 117-120). -/
def zeroHash : Bytes := List.replicate 32 0

/-- Shared machine state of a `find_next_hash_par` run.  `flag` is the
`found_solution` atomic, `slot` the mutex-protected `solution` pair;
`written`, `firstWrite` and `lastWrite` are ghost fields recording whether
and what was written into the slot. -/
structure MState where
  workers : List WState
  flag : Bool
  slot : Bytes × Nat
  written : Bool
  firstWrite : Option (Bytes × Nat)
  lastWrite : Option (Bytes × Nat)
deriving DecidableEq

/-- Initial machine state: worker `i` of `threads` starts running at
`u64::MAX.saturating_div(threads).saturating_mul(i)`; the flag is clear and
the slot holds the all-zero hash paired with nonce `0`. -/
def initState (threads : Nat) : MState :=
  { workers := (List.range threads).map fun i => WState.running (startNonce threads i),
    flag := false, slot := (zeroHash, 0), written := false,
    firstWrite := none, lastWrite := none }

/-- One interleaved step of the worker pool:
* `exitFlag`: at a `nonce % 10_000 == 0` boundary a worker that observes the
  stop flag set returns without writing;
* `findHit`: a worker whose candidate passes the difficulty comparison sets
  the stop flag and proceeds to the slot write (mine.rs lines 149-156);
* `findMiss`: otherwise the worker increments its nonce (wrapping as `u64`);
* `write`: a worker holding the mutex stores its pair into the slot
  (unconditionally) and returns. -/
inductive Step (inp : PowInput) : MState → MState → Prop where
  | exitFlag (s : MState) (w n : Nat) :
      s.workers[w]? = some (WState.running n) → n % 10000 = 0 → s.flag = true →
      Step inp s { s with workers := s.workers.set w (WState.done false) }
  | findHit (s : MState) (w n : Nat) :
      s.workers[w]? = some (WState.running n) →
      lexLe (candidate inp n) inp.difficulty = true →
      Step inp s { s with workers := s.workers.set w (WState.writing (candidate inp n, n)),
                          flag := true }
  | findMiss (s : MState) (w n : Nat) :
      s.workers[w]? = some (WState.running n) →
      lexLe (candidate inp n) inp.difficulty = false →
      Step inp s { s with workers := s.workers.set w (WState.running ((n + 1) % u64Size)) }
  | write (s : MState) (w : Nat) (p : Bytes × Nat) :
      s.workers[w]? = some (WState.writing p) →
      Step inp s { s with workers := s.workers.set w (WState.done true),
                          slot := p, written := true,
                          firstWrite := some (s.firstWrite.getD p),
                          lastWrite := some p }

/-- States a `find_next_hash_par` run with `threads` workers can reach. -/
def Reachable (inp : PowInput) (threads : Nat) (s : MState) : Prop :=
  Relation.ReflTransGen (Step inp) (initState threads) s

/-- All workers have returned: the point where the caller's full join
completes and the slot is read (mine.rs lines 165-170). -/
def Terminal (s : MState) : Prop :=
  ∀ ws ∈ s.workers, ∃ b, ws = WState.done b

/-- Inductive invariant of the machine. -/
structure PowInv (inp : PowInput) (s : MState) : Prop where
  writingValid : ∀ (w : Nat) (p : Bytes × Nat),
    s.workers[w]? = some (WState.writing p) → validPair inp p
  writtenValid : s.written = true → validPair inp s.slot
  flagWrite : s.flag = true →
    (∃ (w : Nat) (p : Bytes × Nat), s.workers[w]? = some (WState.writing p)) ∨
      s.written = true
  doneTrue : ∀ (w : Nat), s.workers[w]? = some (WState.done true) → s.written = true
  doneFalse : ∀ (w : Nat), s.workers[w]? = some (WState.done false) → s.flag = true
  lastSlot : s.written = true → s.lastWrite = some s.slot

theorem inv_init (inp : PowInput) (threads : Nat) : PowInv inp (initState threads) := by
  constructor
  · intro w p h
    rcases List.getElem?_eq_some_iff.mp h with ⟨hw, hval⟩
    simp [initState] at hval
  · intro h; simp [initState] at h
  · intro h; simp [initState] at h
  · intro w h
    rcases List.getElem?_eq_some_iff.mp h with ⟨hw, hval⟩
    simp [initState] at hval
  · intro w h
    rcases List.getElem?_eq_some_iff.mp h with ⟨hw, hval⟩
    simp [initState] at hval
  · intro h; simp [initState] at h

theorem inv_step (inp : PowInput) (s s' : MState)
    (hinv : PowInv inp s) (hstep : Step inp s s') : PowInv inp s' := by
  cases hstep with
  | exitFlag w n hw hmod hflag =>
    have hwlt : w < s.workers.length := (List.getElem?_eq_some_iff.mp hw).1
    constructor
    · intro v p hv
      by_cases hvw : w = v
      · subst hvw; rw [List.getElem?_set_self hwlt] at hv; cases hv
      · rw [List.getElem?_set_ne hvw] at hv; exact hinv.writingValid v p hv
    · exact hinv.writtenValid
    · intro h
      rcases hinv.flagWrite h with ⟨v, p, hv⟩ | hwr
      · left
        have hvw : w ≠ v := by
          intro he; subst he; rw [hw] at hv; cases hv
        exact ⟨v, p, by rw [List.getElem?_set_ne hvw]; exact hv⟩
      · right; exact hwr
    · intro v hv
      by_cases hvw : w = v
      · subst hvw; rw [List.getElem?_set_self hwlt] at hv; cases hv
      · rw [List.getElem?_set_ne hvw] at hv; exact hinv.doneTrue v hv
    · intro v _; exact hflag
    · exact hinv.lastSlot
  | findHit w n hw hle =>
    have hwlt : w < s.workers.length := (List.getElem?_eq_some_iff.mp hw).1
    constructor
    · intro v p hv
      by_cases hvw : w = v
      · subst hvw; rw [List.getElem?_set_self hwlt] at hv
        cases hv; exact ⟨rfl, hle⟩
      · rw [List.getElem?_set_ne hvw] at hv; exact hinv.writingValid v p hv
    · exact hinv.writtenValid
    · intro _
      left
      exact ⟨w, (candidate inp n, n), List.getElem?_set_self hwlt⟩
    · intro v hv
      by_cases hvw : w = v
      · subst hvw; rw [List.getElem?_set_self hwlt] at hv; cases hv
      · rw [List.getElem?_set_ne hvw] at hv; exact hinv.doneTrue v hv
    · intro v _; rfl
    · exact hinv.lastSlot
  | findMiss w n hw hle =>
    have hwlt : w < s.workers.length := (List.getElem?_eq_some_iff.mp hw).1
    constructor
    · intro v p hv
      by_cases hvw : w = v
      · subst hvw; rw [List.getElem?_set_self hwlt] at hv; cases hv
      · rw [List.getElem?_set_ne hvw] at hv; exact hinv.writingValid v p hv
    · exact hinv.writtenValid
    · intro h
      rcases hinv.flagWrite h with ⟨v, p, hv⟩ | hwr
      · left
        have hvw : w ≠ v := by
          intro he; subst he; rw [hw] at hv; cases hv
        exact ⟨v, p, by rw [List.getElem?_set_ne hvw]; exact hv⟩
      · right; exact hwr
    · intro v hv
      by_cases hvw : w = v
      · subst hvw; rw [List.getElem?_set_self hwlt] at hv; cases hv
      · rw [List.getElem?_set_ne hvw] at hv; exact hinv.doneTrue v hv
    · intro v hv
      by_cases hvw : w = v
      · subst hvw; rw [List.getElem?_set_self hwlt] at hv; cases hv
      · rw [List.getElem?_set_ne hvw] at hv; exact hinv.doneFalse v hv
    · exact hinv.lastSlot
  | write w p hw =>
    have hwlt : w < s.workers.length := (List.getElem?_eq_some_iff.mp hw).1
    have hpv : validPair inp p := hinv.writingValid w p hw
    constructor
    · intro v q hv
      by_cases hvw : w = v
      · subst hvw; rw [List.getElem?_set_self hwlt] at hv; cases hv
      · rw [List.getElem?_set_ne hvw] at hv; exact hinv.writingValid v q hv
    · intro _; exact hpv
    · intro _; right; rfl
    · intro v _; rfl
    · intro v hv
      by_cases hvw : w = v
      · subst hvw; rw [List.getElem?_set_self hwlt] at hv; cases hv
      · rw [List.getElem?_set_ne hvw] at hv; exact hinv.doneFalse v hv
    · intro _; rfl

theorem inv_reachable (inp : PowInput) (threads : Nat) (s : MState)
    (h : Reachable inp threads s) : PowInv inp s := by
  induction h with
  | refl => exact inv_init inp threads
  | tail _ hstep ih => exact inv_step inp _ _ ih hstep

/-- The number of workers never changes. -/
theorem reachable_length (inp : PowInput) (threads : Nat) (s : MState)
    (h : Reachable inp threads s) : s.workers.length = threads := by
  induction h with
  | refl => simp [initState]
  | tail _ hstep ih =>
    cases hstep <;> simpa using ih

/-- After a full join of at least one worker, a valid solution was written
and it is what the slot holds. -/
theorem terminal_valid (inp : PowInput) (threads : Nat) (s : MState)
    (hT : 1 ≤ threads) (hr : Reachable inp threads s) (ht : Terminal s) :
    s.written = true ∧ validPair inp s.slot := by
  have hinv : PowInv inp s := inv_reachable inp threads s hr
  have hlen : s.workers.length = threads := reachable_length inp threads s hr
  have h0 : 0 < s.workers.length := by omega
  have hmem : s.workers.get ⟨0, h0⟩ ∈ s.workers := List.get_mem s.workers 0 h0
  obtain ⟨b, hb⟩ := ht _ hmem
  have hb0 : s.workers[0]? = some (WState.done b) := by
    rw [List.getElem?_eq_some_iff]
    exact ⟨h0, hb⟩
  have hwr : s.written = true := by
    cases b with
    | true => exact hinv.doneTrue 0 hb0
    | false =>
      have hflag : s.flag = true := hinv.doneFalse 0 hb0
      rcases hinv.flagWrite hflag with ⟨v, p, hv⟩ | hwr
      · exfalso
        have hmemv : WState.writing p ∈ s.workers := List.getElem?_mem hv
        obtain ⟨b', hb'⟩ := ht _ hmemv
        cases hb'
      · exact hwr
  exact ⟨hwr, hinv.writtenValid hwr⟩

/-! ### Bus selection (mine.rs lines 98-108) -/

/-- An on-chain bus (reward shard) record, as the selector reads it. -/
structure Bus where
  id : Nat
  rewards : Nat
deriving DecidableEq

/-- The acceptance test of `find_bus_id` (mine.rs line 103):
`bus.rewards.gt(&reward_rate.saturating_mul(4))`. -/
def busAccept (reward_rate : Nat) (bus : Bus) : Bool :=
  decide (satMul reward_rate 4 < bus.rewards)

/-- `find_bus_id` (mine.rs lines 98-108), embedded over the list of RPC
responses its retry loop consumes: `none` is a failed `get_bus` read,
`some bus` a successful one.  The loop returns the first bus passing
`busAccept`; a `none` overall result models the loop still spinning after
the given responses are exhausted. -/
def find_bus_id (reward_rate : Nat) : List (Option Bus) → Option Bus
  | [] => none
  | none :: rest => find_bus_id reward_rate rest
  | some bus :: rest =>
    if busAccept reward_rate bus then some bus else find_bus_id reward_rate rest

/-! ### Instruction lists (send_and_confirm.rs, mine.rs, claim.rs, register.rs) -/

/-- A transaction instruction, at the granularity the claims distinguish. -/
inductive Ix where
  | advanceNonce
  | cuLimit (n : Nat)
  | cuPrice (n : Nat)
  | mineIx (signer bus : Nat) (hash : Bytes) (nonce : Nat)
  | claimIx (signer beneficiary amount : Nat)
  | registerIx (signer : Nat)
  | createAtaIx (signer : Nat)
  | transferIx (dest amount : Nat)
deriving DecidableEq

/-- `JITO_TIP_LAMPORTS` (send_and_confirm.rs line 26). -/
def jitoTipLamports : Nat := 500000

/-- Encoding of the fixed tip address `JITO_TIP_ADDRESS` (send_and_confirm.rs
line 27); its concrete 32-byte value is irrelevant to the claims, only that
it is one fixed constant. -/
def jitoTipAddress : Nat := 0

/-- Whether the relay (Jito bundle) delivery strategy is selected: the
`(Some(jito_keypair), false)` arm of the match on
`(&self.jito_keypair, no_jito)` (send_and_confirm.rs line 95). -/
def relaySelected (hasJito noJito : Bool) : Bool := hasJito && !noJito

/-- The instruction list assembled by `send_and_confirm_with_nonce`
(send_and_confirm.rs lines 69-77): the advance-nonce instruction is
prepended to the caller's instructions, and the Jito tip transfer is
appended exactly when a relay keypair is configured and not suppressed. -/
def noncedIxList (hasJito noJito : Bool) (ixs : List Ix) : List Ix :=
  (Ix.advanceNonce :: ixs) ++
    (if hasJito && !noJito then [Ix.transferIx jitoTipAddress jitoTipLamports] else [])

/-- The instruction list a mine cycle submits (mine.rs lines 72-81):
compute-unit limit `CU_LIMIT_MINE * signers.len()`, compute-unit price at the
configured priority fee, then one mine instruction per signer solution. -/
def mineTxIxs (cuLimitMine priorityFee busId : Nat)
    (solutions : List (Nat × Bytes × Nat)) : List Ix :=
  Ix.cuLimit (cuLimitMine * solutions.length) :: Ix.cuPrice priorityFee ::
    solutions.map fun a => Ix.mineIx a.1 busId a.2.1 a.2.2

/-- The compute-unit price of a claim submission (claim.rs lines 52-55):
a fixed `1000` when a Jito relay keypair is configured, the configured
priority fee otherwise. -/
def claimPrio (hasJito : Bool) (priorityFee : Nat) : Nat :=
  if hasJito then 1000 else priorityFee

/-- The instruction list a claim submits (claim.rs lines 51-58). -/
def claimTxIxs (cuLimitClaim : Nat) (hasJito : Bool) (priorityFee beneficiary : Nat)
    (pubkeyAmounts : List (Nat × Nat)) : List Ix :=
  Ix.cuLimit (cuLimitClaim * pubkeyAmounts.length) ::
    Ix.cuPrice (claimPrio hasJito priorityFee) ::
    pubkeyAmounts.map fun a => Ix.claimIx a.1 beneficiary a.2

/-- The instruction list a registration submits (register.rs lines 33-36). -/
def registerTxIxs (cuLimitRegister priorityFee : Nat) (unregistered : List Nat) : List Ix :=
  Ix.cuLimit (cuLimitRegister * unregistered.length) :: Ix.cuPrice priorityFee ::
    unregistered.map Ix.registerIx

/-- The instruction list the token-account bootstrap submits
(claim.rs lines 93-103). -/
def ataTxIxs (cuLimitAta priorityFee signer : Nat) : List Ix :=
  [Ix.cuLimit cuLimitAta, Ix.cuPrice priorityFee, Ix.createAtaIx signer]

/-! ### The submission engine (send_and_confirm.rs) -/

/-- `pat` occurs at the head of `hay` (on character lists). -/
def listStarts : List Char → List Char → Bool
  | _, [] => true
  | [], _ :: _ => false
  | a :: as, b :: bs => a == b && listStarts as bs

/-- `pat` occurs somewhere in `hay` (on character lists). -/
def listHas (pat : List Char) : List Char → Bool
  | [] => listStarts [] pat
  | c :: rest => listStarts (c :: rest) pat || listHas pat rest

/-- Rust `str::contains` for literal patterns. -/
def strHas (hay pat : String) : Bool := listHas pat.data hay.data

/-- The relay rejection text the source probes for (send_and_confirm.rs
line 137). -/
def blockhashMsg : String := "Blockhash not found"

/-- The relay status-timeout text the source probes for (send_and_confirm.rs
line 141). -/
def searcherTimeoutMsg : String := "Searcher service did not provide bundle status in time"

/-- Outcome of a submission call: success with the signature, or an error. -/
inductive SendResult where
  | ok
  | err (msg : String)
deriving DecidableEq

/-- Observable submission effects, at the granularity of the claims. -/
inductive Ev where
  | simulated
  | broadcast
  | bundleSent
deriving DecidableEq

/-- Environment a `send_and_confirm_with_nonce` call runs against: whether a
relay keypair is configured, the `no_jito` argument, the simulation outcome
(`none` = no error), the per-attempt relay outcomes (`none` = the bundle
landed, `some e` = `send_bundle_with_confirmation` failed with message `e`),
and the direct path's per-iteration status-poll outcomes. -/
structure NonceEnv where
  hasJito : Bool
  noJito : Bool
  simErr : Option String
  bundleOutcomes : List (Option String)
  pollLanded : List Bool

/-- The relay retry loop of `send_and_confirm_with_nonce`
(send_and_confirm.rs lines 109-147), one relay outcome per attempt.  On a
rejection the source first sets `success` when the message contains
"Blockhash not found"; then — the following check not being an `else` —
it propagates any error whose message lacks the searcher status-timeout
text, and otherwise either exits the loop (when `success` was set) or
retries. -/
def jitoLoop : List (Option String) → List Ev × Option SendResult
  | [] => ([], none)
  | outcome :: rest =>
    match outcome with
    | none => ([Ev.bundleSent], some SendResult.ok)
    | some e =>
      if !(strHas e searcherTimeoutMsg) then ([Ev.bundleSent], some (SendResult.err e))
      else if strHas e blockhashMsg then ([Ev.bundleSent], some SendResult.ok)
      else
        let r := jitoLoop rest
        (Ev.bundleSent :: r.1, r.2)

/-- The direct-broadcast loop of the nonce path (send_and_confirm.rs lines
162-176): send with preflight disabled, sleep, poll the signature status;
any observed status counts as landed, otherwise resend forever. -/
def noncedSendLoop : List Bool → List Ev × Option SendResult
  | [] => ([], none)
  | landed :: rest =>
    if landed then ([Ev.broadcast], some SendResult.ok)
    else
      let r := noncedSendLoop rest
      (Ev.broadcast :: r.1, r.2)

/-- `send_and_confirm_with_nonce` (send_and_confirm.rs lines 46-180), as the
trace of its submission effects and its outcome (`none` = the unbounded
retry loop is still running past the modelled responses).  The signed
transaction is always simulated first; a simulation error aborts with that
error before any broadcast or bundle; otherwise the relay path runs iff a
relay keypair is configured and not suppressed by `no_jito`. -/
def send_and_confirm_with_nonce (env : NonceEnv) :
    List Ev × Option SendResult :=
  match env.simErr with
  | some e => ([Ev.simulated], some (SendResult.err e))
  | none =>
    if relaySelected env.hasJito env.noJito then
      let r := jitoLoop env.bundleOutcomes
      (Ev.simulated :: r.1, r.2)
    else
      let r := noncedSendLoop env.pollLanded
      (Ev.simulated :: r.1, r.2)

/-- The error text of the zero-balance abort (send_and_confirm.rs line 200). -/
def insufficientMsg : String := "Insufficient SOL balance"

/-- The error text of the bootstrap retry ceiling (send_and_confirm.rs
line 302). -/
def maxRetriesMsg : String := "Max retries"

/-- One bootstrap attempt's broadcasts: the initial send plus
`LOOP_SEND_COUNT = 10` spam resends (send_and_confirm.rs lines 227-231). -/
def bootstrapAttemptEvs : List Ev := List.replicate 11 Ev.broadcast

/-- The retry loop of `send_and_confirm` (send_and_confirm.rs lines
225-305), with one `(sendOk, confirmed)` pair per outer attempt: whether the
initial send returned a signature, and whether a confirm poll then observed
at least `Confirmed` commitment.  `attempts` is the source's counter,
checked against `GATEWAY_RETRIES = 4` after each failed attempt. -/
def bootstrapLoop (skipConfirm : Bool) :
    Nat → List (Bool × Bool) → List Ev × Option SendResult
  | _, [] => ([], none)
  | attempts, (sendOk, confirmed) :: rest =>
    if sendOk && (skipConfirm || confirmed) then
      (bootstrapAttemptEvs, some SendResult.ok)
    else if attempts + 1 > 4 then
      (bootstrapAttemptEvs, some (SendResult.err maxRetriesMsg))
    else
      let r := bootstrapLoop skipConfirm (attempts + 1) rest
      (bootstrapAttemptEvs ++ r.1, r.2)

/-- `send_and_confirm` (send_and_confirm.rs lines 182-306), the blockhash
(bootstrap) path: abort on a zero payer balance, then broadcast-and-poll
with re-signing against a fresh blockhash each attempt.  It performs no
simulation anywhere. -/
def send_and_confirm (balance : Nat) (skipConfirm : Bool)
    (attempts : List (Bool × Bool)) : List Ev × Option SendResult :=
  if balance = 0 then ([], some (SendResult.err insufficientMsg))
  else bootstrapLoop skipConfirm 0 attempts

/-! ### `claim` and `initialize_ata` (claim.rs) -/

/-- Submission events of a `claim` run. -/
inductive ClaimEv where
  | ataCreateSubmitted
  | claimSubmitted
deriving DecidableEq

/-- Reported outcome of a `claim` run. -/
inductive ClaimResult where
  | noRewards
  | claimed (total : Nat)
  | submitFailed
deriving DecidableEq

/-- `initialize_ata` (claim.rs lines 75-112): when the payer's associated
token account does not exist yet, a creation transaction is submitted
through `send_and_confirm_with_nonce`; the derived address is returned
either way. -/
def initialize_ata (ataExists : Bool) : List ClaimEv :=
  if ataExists then [] else [ClaimEv.ataCreateSubmitted]

/-- `claim` (claim.rs lines 18-73), as the trace of submissions it performs
plus its reported outcome.  `beneficiary` is the optional CLI argument (the
absent case derives and possibly creates the payer's token account);
`claimables` is each signer's `proof.claimable_rewards`; `submitOk` is
whether the claim submission succeeds. -/
def claim (beneficiary : Option Nat) (ataExists : Bool) (claimables : List Nat)
    (submitOk : Bool) : List ClaimEv × ClaimResult :=
  let ataEvs : List ClaimEv :=
    match beneficiary with
    | some _ => []
    | none => initialize_ata ataExists
  let amounts := claimables.filter fun a => decide (0 < a)
  if amounts.isEmpty then (ataEvs, ClaimResult.noRewards)
  else
    (ataEvs ++ [ClaimEv.claimSubmitted],
      if submitOk then ClaimResult.claimed amounts.sum else ClaimResult.submitFailed)

/-! ### Concrete runs of the search engine, used by witnesses -/

/-- A concrete well-formed search input whose hash function is constantly the
all-zero hash (so every nonce is a solution). -/
def powInp0 : PowInput :=
  { hashv := fun _ => zeroHash, prevHash := zeroHash, pubkey := zeroHash,
    difficulty := zeroHash }

/-- One-worker run, after worker 0 finds a solution at nonce 0. -/
def powMid0 : MState :=
  { workers := [WState.writing (zeroHash, 0)], flag := true, slot := (zeroHash, 0),
    written := false, firstWrite := none, lastWrite := none }

/-- One-worker run, after worker 0 has written and returned. -/
def powTerm0 : MState :=
  { workers := [WState.done true], flag := true, slot := (zeroHash, 0),
    written := true, firstWrite := some (zeroHash, 0), lastWrite := some (zeroHash, 0) }

theorem pow_step0a : Step powInp0 (initState 1) powMid0 := by
  have he : powMid0 = { initState 1 with
      workers := (initState 1).workers.set 0 (WState.writing (candidate powInp0 0, 0)),
      flag := true } := by decide
  rw [he]
  exact Step.findHit (initState 1) 0 0 (by decide) (by decide)

theorem pow_step0b : Step powInp0 powMid0 powTerm0 := by
  have he : powTerm0 = { powMid0 with
      workers := powMid0.workers.set 0 (WState.done true),
      slot := (zeroHash, 0), written := true,
      firstWrite := some (powMid0.firstWrite.getD (zeroHash, 0)),
      lastWrite := some (zeroHash, 0) } := by decide
  rw [he]
  exact Step.write powMid0 0 (zeroHash, 0) (by decide)

theorem pow_reach0 : Reachable powInp0 1 powTerm0 :=
  Relation.ReflTransGen.head pow_step0a (Relation.ReflTransGen.head pow_step0b .refl)

theorem pow_term0 : Terminal powTerm0 := by
  intro ws hws
  simp [powTerm0] at hws
  exact ⟨true, hws⟩

theorem pow_wf0 : PowWF powInp0 := by
  refine ⟨fun l => ⟨?_, ?_⟩, ?_, ?_⟩
  · show zeroHash.length = 32
    decide
  · show BytesWF zeroHash
    intro x hx
    simp [zeroHash] at hx
    omega
  · show zeroHash.length = 32
    decide
  · show BytesWF zeroHash
    intro x hx
    simp [zeroHash] at hx
    omega

/-- Worker 1's starting nonce with two workers: `⌊(2^64-1)/2⌋`. -/
def nonce1of2 : Nat := 9223372036854775807

/-- Two-worker run: worker 0 has found a solution at nonce 0. -/
def c3m1 : MState :=
  { workers := [WState.writing (zeroHash, 0), WState.running nonce1of2], flag := true,
    slot := (zeroHash, 0), written := false, firstWrite := none, lastWrite := none }

/-- Two-worker run: worker 0 has written `(zeroHash, 0)`. -/
def c3m2 : MState :=
  { workers := [WState.done true, WState.running nonce1of2], flag := true,
    slot := (zeroHash, 0), written := true, firstWrite := some (zeroHash, 0),
    lastWrite := some (zeroHash, 0) }

/-- Two-worker run: worker 1 (whose first nonce is not a `% 10_000 == 0`
checkpoint, so it never reads the stop flag) has also found a solution. -/
def c3m3 : MState :=
  { workers := [WState.done true, WState.writing (zeroHash, nonce1of2)], flag := true,
    slot := (zeroHash, 0), written := true, firstWrite := some (zeroHash, 0),
    lastWrite := some (zeroHash, 0) }

/-- Two-worker run: worker 1 has overwritten the slot with its own pair. -/
def c3m4 : MState :=
  { workers := [WState.done true, WState.done true], flag := true,
    slot := (zeroHash, nonce1of2), written := true, firstWrite := some (zeroHash, 0),
    lastWrite := some (zeroHash, nonce1of2) }

theorem c3_stepA : Step powInp0 (initState 2) c3m1 := by
  have he : c3m1 = { initState 2 with
      workers := (initState 2).workers.set 0 (WState.writing (candidate powInp0 0, 0)),
      flag := true } := by decide
  rw [he]
  exact Step.findHit (initState 2) 0 0 (by decide) (by decide)

theorem c3_stepB : Step powInp0 c3m1 c3m2 := by
  have he : c3m2 = { c3m1 with
      workers := c3m1.workers.set 0 (WState.done true),
      slot := (zeroHash, 0), written := true,
      firstWrite := some (c3m1.firstWrite.getD (zeroHash, 0)),
      lastWrite := some (zeroHash, 0) } := by decide
  rw [he]
  exact Step.write c3m1 0 (zeroHash, 0) (by decide)

theorem c3_stepC : Step powInp0 c3m2 c3m3 := by
  have he : c3m3 = { c3m2 with
      workers := c3m2.workers.set 1
        (WState.writing (candidate powInp0 nonce1of2, nonce1of2)) } := by decide
  rw [he]
  exact Step.findHit c3m2 1 nonce1of2 (by decide) (by decide)

theorem c3_stepD : Step powInp0 c3m3 c3m4 := by
  have he : c3m4 = { c3m3 with
      workers := c3m3.workers.set 1 (WState.done true),
      slot := (zeroHash, nonce1of2), written := true,
      firstWrite := some (c3m3.firstWrite.getD (zeroHash, nonce1of2)),
      lastWrite := some (zeroHash, nonce1of2) } := by decide
  rw [he]
  exact Step.write c3m3 1 (zeroHash, nonce1of2) (by decide)

theorem c3_reach : Reachable powInp0 2 c3m4 :=
  Relation.ReflTransGen.head c3_stepA (Relation.ReflTransGen.head c3_stepB
    (Relation.ReflTransGen.head c3_stepC (Relation.ReflTransGen.head c3_stepD .refl)))

theorem c3_term : Terminal c3m4 := by
  intro ws hws
  simp [c3m4] at hws
  exact ⟨true, hws⟩

/-! ### The claims -/

/-- **C1.** Whenever `find_next_hash_par`, run with at least one worker
thread, returns (all workers joined, a terminal state), the returned pair
`(hash, nonce)` satisfies `hash = hashv(prev_hash ‖ pubkey ‖ le_bytes(nonce))`
and `hash ≤ difficulty` under big-endian unsigned comparison. -/
theorem find_next_hash_par_valid (inp : PowInput) (threads : Nat) (s : MState)
    (hwf : PowWF inp) (hT : 1 ≤ threads) (hr : Reachable inp threads s)
    (ht : Terminal s) :
    s.slot.1 = inp.hashv (inp.prevHash ++ inp.pubkey ++ leBytes8 s.slot.2) ∧
      beVal s.slot.1 ≤ beVal inp.difficulty := by
  obtain ⟨hwr, hv⟩ := terminal_valid inp threads s hT hr ht
  obtain ⟨h1, h2⟩ := hv
  refine ⟨h1, ?_⟩
  have hlen : s.slot.1.length = inp.difficulty.length := by
    rw [h1]
    show (inp.hashv _).length = _
    rw [(hwf.1 _).1, hwf.2.1]
  have hwfs : BytesWF s.slot.1 := by
    rw [h1]; exact (hwf.1 _).2
  exact (lexLe_iff_beVal_le _ _ hlen hwfs hwf.2.2).mp h2

theorem find_next_hash_par_valid_witness :
    PowWF powInp0 ∧ 1 ≤ 1 ∧ Reachable powInp0 1 powTerm0 ∧ Terminal powTerm0 ∧
      (powTerm0.slot.1 =
          powInp0.hashv (powInp0.prevHash ++ powInp0.pubkey ++ leBytes8 powTerm0.slot.2) ∧
        beVal powTerm0.slot.1 ≤ beVal powInp0.difficulty) :=
  ⟨pow_wf0, le_refl 1, pow_reach0, pow_term0,
    find_next_hash_par_valid powInp0 1 powTerm0 pow_wf0 (le_refl 1) pow_reach0 pow_term0⟩

/-- **C2 (counterexample).** With two workers, worker 1 starts at
`u64::MAX.saturating_div(2) = 2^63 - 1`, not at the claimed
`1 * ⌊2^64 / 2⌋ = 2^63`. -/
theorem startNonce_not_claimed_offset :
    startNonce 2 1 = 9223372036854775807 ∧
      1 * (u64Size / 2) = 9223372036854775808 ∧
      startNonce 2 1 ≠ 1 * (u64Size / 2) := by decide

/-- **C2 (amended).** Worker `i` of `T` workers (with `T` a valid nonzero
`u64`) starts exactly at `i * ⌊(2^64 - 1) / T⌋` — the saturating operations
never saturate for `i < T` — and distinct workers never share a starting
offset. -/
theorem startNonce_spacing (T i j : Nat) (hT : 1 ≤ T) (hTu : T ≤ u64Max)
    (hi : i < T) (hj : j < T) (hij : i ≠ j) :
    startNonce T i = i * (u64Max / T) ∧ startNonce T i ≠ startNonce T j := by
  have hq1 : 1 ≤ u64Max / T := (Nat.one_le_div_iff (by omega)).mpr hTu
  have hbound : ∀ k, k < T → u64Max / T * k ≤ u64Max := by
    intro k hk
    calc u64Max / T * k ≤ u64Max / T * T := Nat.mul_le_mul_left _ (by omega)
      _ ≤ u64Max := Nat.div_mul_le_self _ _
  have hform : ∀ k, k < T → startNonce T k = k * (u64Max / T) := by
    intro k hk
    show min (u64Max / T * k) u64Max = k * (u64Max / T)
    rw [min_eq_left (hbound k hk), Nat.mul_comm]
  refine ⟨hform i hi, ?_⟩
  rw [hform i hi, hform j hj]
  intro he
  exact hij (Nat.eq_of_mul_eq_mul_right (by omega) he)

theorem startNonce_spacing_witness :
    1 ≤ 3 ∧ 3 ≤ u64Max ∧ 1 < 3 ∧ 2 < 3 ∧ (1 : Nat) ≠ 2 ∧
      (startNonce 3 1 = 1 * (u64Max / 3) ∧ startNonce 3 1 ≠ startNonce 3 2) :=
  ⟨by decide, by decide, by decide, by decide, by decide,
    startNonce_spacing 3 1 2 (by decide) (by decide) (by decide) (by decide) (by decide)⟩

/-- **C3 (counterexample).** A reachable full-join state of a two-worker run
in which the slot no longer holds the first solution written: worker 1's
later write overwrote worker 0's, so the caller reads the second solution,
refuting "later writers do not overwrite / the caller reads the first
solution written". -/
theorem slot_overwritten_by_later_writer :
    Reachable powInp0 2 c3m4 ∧ Terminal c3m4 ∧
      c3m4.firstWrite = some (zeroHash, 0) ∧ c3m4.slot ≠ (zeroHash, 0) :=
  ⟨c3_reach, c3_term, rfl, by decide⟩

/-- **C3 (amended).** Every write into the result slot replaces its
contents, so after the full join the caller reads the *last* solution
written — which is nonetheless always a valid solution, since every worker
only ever writes pairs that pass the difficulty test. -/
theorem slot_holds_last_write (inp : PowInput) (threads : Nat) (s : MState)
    (hr : Reachable inp threads s) (hw : s.written = true) :
    s.lastWrite = some s.slot ∧ validPair inp s.slot := by
  have hinv := inv_reachable inp threads s hr
  exact ⟨hinv.lastSlot hw, hinv.writtenValid hw⟩

theorem slot_holds_last_write_witness :
    Reachable powInp0 2 c3m4 ∧ c3m4.written = true ∧
      (c3m4.lastWrite = some c3m4.slot ∧ validPair powInp0 c3m4.slot) :=
  ⟨c3_reach, rfl, slot_holds_last_write powInp0 2 c3m4 c3_reach rfl⟩

/-- **C10.** With zero worker threads, the only reachable state is the
initial one (no steps are possible), which is already terminal: the
function immediately returns the initial slot value — the all-zero hash
paired with nonce 0 — and there are inputs for which that pair is not a
valid solution. -/
theorem zero_threads_returns_initial_slot (inp : PowInput) (s : MState)
    (hr : Reachable inp 0 s) :
    s = initState 0 ∧ s.slot = (zeroHash, 0) ∧ Terminal s ∧
      ∃ inpBad : PowInput, ¬ validPair inpBad (zeroHash, 0) := by
  have hs : s = initState 0 := by
    induction hr with
    | refl => rfl
    | tail hprev hstep ih =>
      subst ih
      cases hstep with
      | exitFlag w n hw hmod hflag => simp [initState] at hw
      | findHit w n hw hle => simp [initState] at hw
      | findMiss w n hw hle => simp [initState] at hw
      | write w p hw => simp [initState] at hw
  subst hs
  refine ⟨rfl, rfl, ?_, ?_⟩
  · intro ws hws
    simp [initState] at hws
  · refine ⟨⟨fun _ => 1 :: List.replicate 31 0, [], [], zeroHash⟩, ?_⟩
    intro hvp
    exact absurd hvp.1 (by decide)

theorem zero_threads_returns_initial_slot_witness :
    Reachable powInp0 0 (initState 0) ∧
      (initState 0 = initState 0 ∧ (initState 0).slot = (zeroHash, 0) ∧
        Terminal (initState 0) ∧
        ∃ inpBad : PowInput, ¬ validPair inpBad (zeroHash, 0)) :=
  ⟨Relation.ReflTransGen.refl,
    zero_threads_returns_initial_slot powInp0 (initState 0) Relation.ReflTransGen.refl⟩

/-- **C4.** `find_bus_id` returns a bus only if its rewards strictly exceed
`4 × reward_rate` in exact unsigned arithmetic; since every on-chain rewards
balance fits in a `u64`, the saturating multiplication also rejects every
bus when `4 × reward_rate` exceeds the `u64` range. -/
theorem find_bus_id_only_funded (rate : Nat) (rs : List (Option Bus)) (bus : Bus)
    (hwf : ∀ b : Bus, some b ∈ rs → b.rewards ≤ u64Max)
    (hret : find_bus_id rate rs = some bus) : 4 * rate < bus.rewards := by
  induction rs with
  | nil => simp [find_bus_id] at hret
  | cons r rest ih =>
    cases r with
    | none =>
      exact ih (fun b hb => hwf b (List.mem_cons_of_mem _ hb))
        (by simpa [find_bus_id] using hret)
    | some b =>
      by_cases hacc : busAccept rate b = true
      · rw [find_bus_id, if_pos hacc] at hret
        obtain rfl : b = bus := Option.some.inj hret
        have hle : b.rewards ≤ u64Max := hwf b (List.mem_cons_self _ _)
        have hacc' : satMul rate 4 < b.rewards := by simpa [busAccept] using hacc
        simp only [satMul] at hacc'
        omega
      · rw [find_bus_id, if_neg hacc] at hret
        exact ih (fun b' hb => hwf b' (List.mem_cons_of_mem _ hb)) hret

theorem find_bus_id_only_funded_witness :
    (∀ b : Bus, some b ∈ [some (Bus.mk 0 100)] → b.rewards ≤ u64Max) ∧
      find_bus_id 10 [some (Bus.mk 0 100)] = some (Bus.mk 0 100) ∧
      4 * 10 < (Bus.mk 0 100).rewards :=
  have hwf : ∀ b : Bus, some b ∈ [some (Bus.mk 0 100)] → b.rewards ≤ u64Max := by
    intro b hb
    rw [List.mem_singleton] at hb
    cases Option.some.inj hb
    decide
  ⟨hwf, by decide,
    find_bus_id_only_funded 10 [some (Bus.mk 0 100)] (Bus.mk 0 100) hwf (by decide)⟩

/-- `bootstrapLoop` never emits a simulation event. -/
theorem bootstrapLoop_no_sim (skipConfirm : Bool) (att : Nat)
    (l : List (Bool × Bool)) : Ev.simulated ∉ (bootstrapLoop skipConfirm att l).1 := by
  induction l generalizing att with
  | nil => simp [bootstrapLoop]
  | cons a rest ih =>
    obtain ⟨sendOk, confirmed⟩ := a
    rw [bootstrapLoop]
    split
    · simp [bootstrapAttemptEvs]
    · split
      · simp [bootstrapAttemptEvs]
      · intro hmem
        rcases List.mem_append.mp hmem with h | h
        · simp [bootstrapAttemptEvs] at h
        · exact ih (att + 1) h

/-- **C5 (counterexample).** A successful bootstrap `send_and_confirm` run
broadcasts without ever simulating: the blockhash-based path contains no
simulation step at all, refuting "every transaction is simulated before any
broadcast … on the blockhash-based bootstrap path" as stated. -/
theorem bootstrap_broadcast_without_simulation :
    (send_and_confirm 1 false [(true, true)]).2 = some SendResult.ok ∧
      Ev.broadcast ∈ (send_and_confirm 1 false [(true, true)]).1 ∧
      Ev.simulated ∉ (send_and_confirm 1 false [(true, true)]).1 := by decide

/-- **C5 (amended).** On the nonce-based path every transaction is simulated
first — a non-empty simulation error aborts immediately with that error and
nothing is ever broadcast or bundled for that attempt — while the
blockhash-based bootstrap path performs no simulation at all. -/
theorem simulation_policy (env : NonceEnv) (e : String)
    (hsim : env.simErr = some e) :
    send_and_confirm_with_nonce env = ([Ev.simulated], some (SendResult.err e)) ∧
      (∀ env' : NonceEnv,
        (send_and_confirm_with_nonce env').1.head? = some Ev.simulated) ∧
      (∀ (balance : Nat) (skipConfirm : Bool) (outcomes : List (Bool × Bool)),
        Ev.simulated ∉ (send_and_confirm balance skipConfirm outcomes).1) := by
  refine ⟨?_, ?_, ?_⟩
  · simp [send_and_confirm_with_nonce, hsim]
  · intro env'
    rcases h : env'.simErr with _ | e'
    · simp only [send_and_confirm_with_nonce, h]
      split <;> rfl
    · simp only [send_and_confirm_with_nonce, h]
      rfl
  · intro balance skipConfirm outcomes
    rw [send_and_confirm]
    split
    · simp
    · exact bootstrapLoop_no_sim skipConfirm 0 outcomes

/-- A concrete environment whose simulation reports an error. -/
def simFailEnv : NonceEnv :=
  { hasJito := true, noJito := false, simErr := some ("custom program error"),
    bundleOutcomes := [none], pollLanded := [true] }

theorem simulation_policy_witness :
    simFailEnv.simErr = some ("custom program error") ∧
      (send_and_confirm_with_nonce simFailEnv =
          ([Ev.simulated], some (SendResult.err ("custom program error"))) ∧
        (∀ env' : NonceEnv,
          (send_and_confirm_with_nonce env').1.head? = some Ev.simulated) ∧
        (∀ (balance : Nat) (skipConfirm : Bool) (outcomes : List (Bool × Bool)),
          Ev.simulated ∉ (send_and_confirm balance skipConfirm outcomes).1)) :=
  ⟨rfl, simulation_policy simFailEnv ("custom program error") rfl⟩

/-- **C6 (counterexample).** With all claimable rewards zero but the
beneficiary argument absent and the payer's associated token account not yet
existing, `claim()` still submits the token-account-creation transaction
(a write) before discovering there is nothing to claim, refuting "performs
no write … for every beneficiary argument including the absent one". -/
theorem claim_absent_beneficiary_creates_ata :
    claim none false [0, 0] true = ([ClaimEv.ataCreateSubmitted], ClaimResult.noRewards) ∧
      ClaimEv.ataCreateSubmitted ∈ (claim none false [0, 0] true).1 := by decide

/-- **C6 (amended).** When every signer's claimable reward is zero, `claim()`
reports the "no rewards to claim" no-op and never submits a claim
transaction; and whenever a beneficiary is supplied (or the associated token
account already exists) it performs no write at all.  Only the combination
"absent beneficiary + missing token account" still performs the
account-creation write. -/
theorem claim_zero_rewards_noop (beneficiary : Option Nat) (ataExists : Bool)
    (claimables : List Nat) (submitOk : Bool)
    (hzero : ∀ c ∈ claimables, c = 0) :
    (claim beneficiary ataExists claimables submitOk).2 = ClaimResult.noRewards ∧
      ClaimEv.claimSubmitted ∉ (claim beneficiary ataExists claimables submitOk).1 ∧
      ((∃ b, beneficiary = some b) ∨ ataExists = true →
        (claim beneficiary ataExists claimables submitOk).1 = []) := by
  have hempty : claimables.filter (fun a => decide (0 < a)) = [] := by
    rw [List.filter_eq_nil_iff]
    intro a ha
    simp [hzero a ha]
  rcases beneficiary with _ | b
  · cases ataExists with
    | false =>
      refine ⟨?_, ?_, ?_⟩
      · simp [claim, hempty]
      · simp [claim, hempty, initialize_ata]
      · rintro (⟨b, hb⟩ | hb) <;> cases hb
    | true =>
      refine ⟨?_, ?_, ?_⟩
      · simp [claim, hempty]
      · simp [claim, hempty, initialize_ata]
      · intro _; simp [claim, hempty, initialize_ata]
  · refine ⟨?_, ?_, ?_⟩
    · simp [claim, hempty]
    · simp [claim, hempty]
    · intro _; simp [claim, hempty]

theorem claim_zero_rewards_noop_witness :
    (∀ c ∈ [0, 0], c = 0) ∧
      ((claim (some 7) true [0, 0] false).2 = ClaimResult.noRewards ∧
        ClaimEv.claimSubmitted ∉ (claim (some 7) true [0, 0] false).1 ∧
        ((∃ b, (some 7 : Option Nat) = some b) ∨ true = true →
          (claim (some 7) true [0, 0] false).1 = [])) :=
  ⟨by decide, claim_zero_rewards_noop (some 7) true [0, 0] false (by decide)⟩

/-- **C7 (code bug).** On the relay path, a rejection whose message contains
"Blockhash not found" is not returned as success: the source sets its
`success` flag, but the following check is not an `else`, so
`Err(err.to_string())?` still propagates and the call returns the rejection
as an error instead of `Ok(sig)`. -/
theorem jito_blockhash_rejection_propagates_error :
    send_and_confirm_with_nonce
        { hasJito := true, noJito := false, simErr := none,
          bundleOutcomes := [some ("Blockhash not found")], pollLanded := [] } =
      ([Ev.simulated, Ev.bundleSent],
        some (SendResult.err ("Blockhash not found"))) := by decide

/-- **C8.** Every transaction assembled by `send_and_confirm_with_nonce`
from a caller instruction list of the shape
`[set-compute-unit-limit, set-compute-unit-price, …domain…]` (which is what
mine, claim, register and the token-account bootstrap all pass, the limit
scaled by the number of batched identities) starts with the advance-nonce
instruction, keeps the caller's order, and ends with the fixed Jito tip
transfer exactly when the relay strategy is in effect. -/
theorem nonced_tx_instruction_order (hasJito noJito : Bool) (lim price : Nat)
    (domain : List Ix) :
    (noncedIxList hasJito noJito (Ix.cuLimit lim :: Ix.cuPrice price :: domain) =
        Ix.advanceNonce :: Ix.cuLimit lim :: Ix.cuPrice price :: domain ++
          (if relaySelected hasJito noJito = true then
            [Ix.transferIx jitoTipAddress jitoTipLamports] else [])) ∧
      (relaySelected hasJito noJito = true →
        (noncedIxList hasJito noJito
            (Ix.cuLimit lim :: Ix.cuPrice price :: domain)).getLast? =
          some (Ix.transferIx jitoTipAddress jitoTipLamports)) ∧
      (relaySelected hasJito noJito = false →
        noncedIxList hasJito noJito (Ix.cuLimit lim :: Ix.cuPrice price :: domain) =
          Ix.advanceNonce :: Ix.cuLimit lim :: Ix.cuPrice price :: domain) ∧
      (∀ (perOp fee bus : Nat) (sols : List (Nat × Bytes × Nat)),
        noncedIxList hasJito noJito (mineTxIxs perOp fee bus sols) =
          Ix.advanceNonce :: Ix.cuLimit (perOp * sols.length) :: Ix.cuPrice fee ::
            (sols.map fun a => Ix.mineIx a.1 bus a.2.1 a.2.2) ++
            (if relaySelected hasJito noJito = true then
              [Ix.transferIx jitoTipAddress jitoTipLamports] else [])) ∧
      (∀ (perOp fee benef : Nat) (amounts : List (Nat × Nat)),
        noncedIxList hasJito noJito (claimTxIxs perOp hasJito fee benef amounts) =
          Ix.advanceNonce :: Ix.cuLimit (perOp * amounts.length) ::
            Ix.cuPrice (claimPrio hasJito fee) ::
            (amounts.map fun a => Ix.claimIx a.1 benef a.2) ++
            (if relaySelected hasJito noJito = true then
              [Ix.transferIx jitoTipAddress jitoTipLamports] else [])) := by
  refine ⟨?_, ?_, ?_, ?_, ?_⟩
  · simp [noncedIxList, relaySelected]
  · intro hrel
    have hb : (hasJito && !noJito) = true := hrel
    rw [noncedIxList, hb]
    simp only [if_pos rfl]
    exact List.getLast?_concat _
  · intro hrel
    have hb : (hasJito && !noJito) = false := hrel
    rw [noncedIxList, hb]
    simp
  · intro perOp fee bus sols
    simp [noncedIxList, mineTxIxs, relaySelected]
  · intro perOp fee benef amounts
    simp [noncedIxList, claimTxIxs, relaySelected]

theorem nonced_tx_instruction_order_witness :
    (noncedIxList true false
        (Ix.cuLimit 5 :: Ix.cuPrice 7 :: [Ix.registerIx 1])).getLast? =
      some (Ix.transferIx jitoTipAddress jitoTipLamports) :=
  (nonced_tx_instruction_order true false 5 7 [Ix.registerIx 1]).2.1 (by decide)

/-- **C9 (counterexample).** With a relay keypair configured and priority
fee 10, the claim-path compute-unit price is the fixed 1000, but the
mine-path price is still 10 — the configured fee, not a fixed override —
refuting "for every transaction built by the core (mine and claim alike)". -/
theorem mine_price_ignores_relay :
    (mineTxIxs 100 10 0 [(1, zeroHash, 0)])[1]? = some (Ix.cuPrice 10) ∧
      (claimTxIxs 100 true 10 5 [(1, 2)])[1]? = some (Ix.cuPrice 1000) ∧
      Ix.cuPrice 10 ≠ Ix.cuPrice 1000 := by decide

/-- **C9 (amended).** Mine submissions always carry the configured priority
fee as their compute-unit price, with no relay override; only claim
submissions override the price to the fixed 1000 when a relay keypair is
configured. -/
theorem price_policy (perOp fee busId benef : Nat) (hasJito : Bool)
    (sols : List (Nat × Bytes × Nat)) (amounts : List (Nat × Nat)) :
    (mineTxIxs perOp fee busId sols)[1]? = some (Ix.cuPrice fee) ∧
      (claimTxIxs perOp hasJito fee benef amounts)[1]? =
        some (Ix.cuPrice (if hasJito then 1000 else fee)) := by
  constructor
  · simp [mineTxIxs]
  · simp [claimTxIxs, claimPrio]

end OreCli
